import Mathlib

/-!
Verification development for the formelbaer-rnn repository.

The repository trains a recurrent generator of formula token sequences
against a convolutional discriminator (SeqGAN-style).  This file gives a
shallow embedding of the parts of the code that the verified properties
are about:

* `src/generator.py` — the batch-shape dynamics of `step` (lines 81-116),
  the `rollout` while-loop (lines 119-126) and the policy-gradient
  `update` (lines 144-186);
* `src/application.py` — the reward branch of `adversarial_generator`
  (lines 127-145) together with `collect_reward` (lines 93-102);
* `src/log.py` — the arithmetic and state effect of `log` (lines 66-90);
* `src/loader.py` — `normalize` (lines 254-260), the text produced by
  `save_sequences` (lines 48-76) and the directory-name computation of
  `make_directory_with_timestamp` (lines 79-92).

Tensors are embedded as lists of rationals.  A batch tensor of shape
(batchsize, length, encoding-dim) is represented position-major: a
`List (List ℚ)` whose outer list is indexed by the sequence-length
dimension (`shape[1]`) and whose entries collect all scalar entries of
the corresponding `batch[:, i, :]` slice; this is exactly the data that
`generator.step`'s length bookkeeping (`torch.cat`, the
`torch.sum(batch[:,0,:]) == 0` start-token test, and slicing off the
first position) depends on.
-/

namespace Formelbaer

/-- One-hot encoding of token id `a` over a vocabulary of size `d`;
embeds `tokens.onehot` as used by `generator.step` line 108 (the
vocabulary module itself is not part of the claims, only the fact that
a sampled action `a < d` yields a vector with a single 1). -/
def onehot (d a : ℕ) : List ℚ :=
  (List.range d).map (fun j => if j = a then 1 else 0)

/-- The slice `encodings` appended by `generator.step` lines 108-110:
the one-hot rows of all sampled actions of the batch, collected into a
single position slice. -/
def encodeSlice (d : ℕ) (acts : List ℕ) : List ℚ :=
  (acts.map (onehot d)).flatten

/-- Batch-shape effect of `generator.step` (src/generator.py lines
107-116): append the slice of freshly sampled one-hot encodings at the
end of the length dimension (`torch.cat((batch, encodings), dim=1)`),
then drop the first position if it is the all-zero start token
(`if torch.sum(batch[:,0,:]) == 0: batch = batch[:,1:,:]`).  The
network forward pass, oracle loss and log-probability bookkeeping in
`step` do not touch the batch tensor and are irrelevant to the shape
claims; the sampled encodings slice is taken as the argument `enc`. -/
def stepBatch (enc : List ℚ) (b : List (List ℚ)) : List (List ℚ) :=
  let b' := b ++ [enc]
  if (b'.headD []).sum = 0 then b'.tail else b'

/-- Fuel-indexed unfolding of the `while batch.shape[1] <
cfg.app_cfg.seq_length` loop of `generator.rollout` (src/generator.py
lines 119-126).  `encs k` is the encodings slice sampled at the k-th
iteration of the loop (sampling is nondeterministic in the source, so
the slices are a parameter); `fuel` bounds the number of iterations and
is shown below to be irrelevant once large enough. -/
def rolloutAux (encs : ℕ → List ℚ) (L : ℕ) : ℕ → ℕ → List (List ℚ) → List (List ℚ)
  | 0, _, b => b
  | fuel + 1, k, b =>
      if b.length < L then rolloutAux encs L fuel (k + 1) (stepBatch (encs k) b) else b

/-- Number of leading positions of the batch whose slice sums to zero
(leading start-token positions, which `stepBatch` strips one by one). -/
def leadingZeroSlices : List (List ℚ) → ℕ
  | [] => 0
  | s :: rest => if s.sum = 0 then leadingZeroSlices rest + 1 else 0

/-- A sufficient iteration budget for the rollout while-loop. -/
def rolloutFuel (L : ℕ) (b : List (List ℚ)) : ℕ :=
  (L - b.length) + leadingZeroSlices b

/-- `generator.rollout`: run the while-loop to completion (the fuel
`rolloutFuel L b` is proved sufficient below, so this is the exact
loop result). -/
def rollout (encs : ℕ → List ℚ) (L : ℕ) (b : List (List ℚ)) : List (List ℚ) :=
  rolloutAux encs L (rolloutFuel L b) 0 b

lemma length_stepBatch_ge (enc : List ℚ) (b : List (List ℚ)) :
    b.length ≤ (stepBatch enc b).length := by
  unfold stepBatch
  by_cases h : (((b ++ [enc]).headD []).sum = 0)
  · rw [if_pos h, List.length_tail, List.length_append, List.length_singleton]
    omega
  · rw [if_neg h, List.length_append, List.length_singleton]
    omega

lemma length_stepBatch_le (enc : List ℚ) (b : List (List ℚ)) :
    (stepBatch enc b).length ≤ b.length + 1 := by
  unfold stepBatch
  by_cases h : (((b ++ [enc]).headD []).sum = 0)
  · rw [if_pos h, List.length_tail, List.length_append, List.length_singleton]
    omega
  · rw [if_neg h, List.length_append, List.length_singleton]

lemma length_le_rolloutAux (encs : ℕ → List ℚ) (L : ℕ) :
    ∀ fuel k b, b.length ≤ (rolloutAux encs L fuel k b).length := by
  intro fuel
  induction fuel with
  | zero => intro k b; simp [rolloutAux]
  | succ n ih =>
      intro k b
      unfold rolloutAux
      by_cases h : b.length < L
      · simp only [h, if_true]
        exact le_trans (length_stepBatch_ge (encs k) b) (ih (k + 1) (stepBatch (encs k) b))
      · simp [h]

lemma rolloutAux_of_full (encs : ℕ → List ℚ) (L : ℕ) (fuel k : ℕ)
    (b : List (List ℚ)) (h : L ≤ b.length) :
    rolloutAux encs L fuel k b = b := by
  cases fuel with
  | zero => rfl
  | succ n => simp [rolloutAux, Nat.not_lt.mpr h]

lemma leadingZeroSlices_append_single (l : List (List ℚ)) (enc : List ℚ)
    (h : enc.sum ≠ 0) :
    leadingZeroSlices (l ++ [enc]) = leadingZeroSlices l := by
  induction l with
  | nil => simp [leadingZeroSlices, h]
  | cons s rest ih =>
      by_cases hs : s.sum = 0
      · simp [leadingZeroSlices, hs, ih]
      · simp [leadingZeroSlices, hs]

/-- One loop iteration decreases the fuel measure by exactly one, as
long as the loop guard holds and the appended slice has nonzero sum. -/
lemma rolloutFuel_stepBatch (enc : List ℚ) (b : List (List ℚ)) (L : ℕ)
    (hL : b.length < L) (henc : enc.sum ≠ 0) :
    rolloutFuel L (stepBatch enc b) + 1 = rolloutFuel L b := by
  unfold stepBatch rolloutFuel
  by_cases h : (((b ++ [enc]).headD []).sum = 0)
  · rw [if_pos h]
    cases b with
    | nil =>
        rw [List.nil_append, List.headD_cons] at h
        exact absurd h henc
    | cons s rest =>
        rw [List.cons_append, List.headD_cons] at h
        rw [List.cons_append, List.tail_cons, List.length_append,
          leadingZeroSlices_append_single rest enc henc,
          List.length_singleton, List.length_cons]
        have hlz : leadingZeroSlices (s :: rest) = leadingZeroSlices rest + 1 := by
          simp [leadingZeroSlices, h]
        rw [hlz]
        omega
  · rw [if_neg h]
    have hlz : leadingZeroSlices (b ++ [enc]) = 0 := by
      cases b with
      | nil =>
          rw [List.nil_append, List.headD_cons] at h
          simp [leadingZeroSlices, h]
      | cons s rest =>
          rw [List.cons_append, List.headD_cons] at h
          simp [leadingZeroSlices, h]
    have hlzb : leadingZeroSlices b = 0 := by
      cases b with
      | nil => rfl
      | cons s rest =>
          rw [List.cons_append, List.headD_cons] at h
          simp [leadingZeroSlices, h]
    rw [hlz, hlzb, List.length_append, List.length_singleton]
    omega

/-- With enough fuel the rollout loop brings the batch to length
`max L b.length`: a short batch is completed to exactly the configured
sequence length, a full batch is left alone. -/
lemma length_rolloutAux_eq (encs : ℕ → List ℚ) (L : ℕ)
    (henc : ∀ k, (encs k).sum ≠ 0) :
    ∀ fuel k b, rolloutFuel L b ≤ fuel →
      (rolloutAux encs L fuel k b).length = max L b.length := by
  intro fuel
  induction fuel with
  | zero =>
      intro k b hfuel
      have h1 : L - b.length = 0 := by
        have := Nat.le_zero.mp hfuel
        unfold rolloutFuel at this
        omega
      have hLb : L ≤ b.length := Nat.le_of_sub_eq_zero h1
      simp [rolloutAux, Nat.max_eq_right hLb]
  | succ n ih =>
      intro k b hfuel
      unfold rolloutAux
      by_cases h : b.length < L
      · simp only [h, if_true]
        have hstep := rolloutFuel_stepBatch (encs k) b L h (henc k)
        have hf : rolloutFuel L (stepBatch (encs k) b) ≤ n := by omega
        rw [ih (k + 1) (stepBatch (encs k) b) hf]
        have h1 : (stepBatch (encs k) b).length ≤ L := by
          have := length_stepBatch_le (encs k) b
          omega
        rw [Nat.max_eq_left h1, Nat.max_eq_left (Nat.le_of_lt h)]
      · simp only [h, if_false]
        rw [Nat.max_eq_right (Nat.not_lt.mp h)]

lemma length_rollout (encs : ℕ → List ℚ) (L : ℕ)
    (henc : ∀ k, (encs k).sum ≠ 0) (b : List (List ℚ)) :
    (rollout encs L b).length = max L b.length :=
  length_rolloutAux_eq encs L henc (rolloutFuel L b) 0 b (le_refl _)

/-- The encodings slice of a nonempty batch of in-vocabulary sampled
actions has sum equal to the number of sequences in the batch, hence
nonzero: every row is a one-hot vector summing to 1. -/
lemma sum_onehot (d a : ℕ) (ha : a < d) : (onehot d a).sum = 1 := by
  unfold onehot
  induction d with
  | zero => omega
  | succ n ih =>
      rw [List.range_succ, List.map_append, List.sum_append]
      by_cases h : a = n
      · subst h
        have : ∀ j ∈ List.range a, ¬ (j = a) := by
          intro j hj
          have := List.mem_range.mp hj
          omega
        have hz : ((List.range a).map (fun j => if j = a then (1 : ℚ) else 0)).sum = 0 := by
          apply List.sum_eq_zero
          intro x hx
          rcases List.mem_map.mp hx with ⟨j, hj, rfl⟩
          simp [this j hj]
        simp [hz]
      · have ha' : a < n := by omega
        rw [ih ha']
        have hna : n ≠ a := fun hh => h hh.symm
        simp [hna]

lemma sum_encodeSlice (d : ℕ) (acts : List ℕ) (hacts : ∀ a ∈ acts, a < d) :
    (encodeSlice d acts).sum = acts.length := by
  unfold encodeSlice
  induction acts with
  | nil => simp
  | cons a rest ih =>
      simp only [List.map_cons, List.flatten_cons, List.sum_append]
      rw [sum_onehot d a (hacts a (List.mem_cons_self a rest))]
      rw [ih (fun x hx => hacts x (List.mem_cons_of_mem a hx))]
      rw [List.length_cons]
      push_cast
      ring

lemma sum_encodeSlice_ne_zero (d : ℕ) (acts : List ℕ)
    (hne : acts ≠ []) (hacts : ∀ a ∈ acts, a < d) :
    (encodeSlice d acts).sum ≠ 0 := by
  rw [sum_encodeSlice d acts hacts]
  have : acts.length ≠ 0 := fun h => hne (List.length_eq_zero.mp h)
  exact_mod_cast Nat.cast_ne_zero.mpr this

/-!  ## Policy-gradient update (src/generator.py lines 144-186)

The per-step rewards and log-probabilities are tensors of shape
(batchsize,), embedded as `List ℚ`.  The returns loop

    total = 0
    for reward in nn_policy.rewards[::-1]:
        total = reward + cfg.g_cfg.gamma * total
        returns.insert(0, total)

iterates the rewards from the last step backwards, keeping the running
return `total` (which is always the head of the `returns` list built so
far, and the scalar 0 before the first iteration, broadcast over the
reward tensor).  `computeReturnsVec` performs the same computation by
folding from the right: the accumulator is the `returns` list, its head
is `total`. -/

/-- Returns-to-go of `update` (src/generator.py lines 146-153). -/
def computeReturnsVec (γ : ℚ) (rewards : List (List ℚ)) : List (List ℚ) :=
  rewards.foldr
    (fun r acc =>
      match acc with
      | [] => [r]
      | t :: rest => (r.zipWith (fun x y => x + γ * y) t) :: t :: rest)
    []

lemma computeReturnsVec_nil (γ : ℚ) : computeReturnsVec γ [] = [] := rfl

lemma computeReturnsVec_length (γ : ℚ) :
    ∀ rewards : List (List ℚ), (computeReturnsVec γ rewards).length = rewards.length := by
  intro rewards
  induction rewards with
  | nil => rfl
  | cons r rs ih =>
      show (match computeReturnsVec γ rs with
            | [] => [r]
            | t :: rest => (r.zipWith (fun x y => x + γ * y) t) :: t :: rest).length
          = rs.length + 1
      cases h : computeReturnsVec γ rs with
      | nil =>
          rw [h] at ih
          simp at ih
          simp [← ih]
      | cons t rest =>
          rw [h] at ih
          simp only [List.length_cons] at ih ⊢
          omega

lemma computeReturnsVec_cons_of_ne (γ : ℚ) (r : List ℚ) (rs : List (List ℚ))
    (h : rs ≠ []) :
    computeReturnsVec γ (r :: rs) =
      (r.zipWith (fun x y => x + γ * y) ((computeReturnsVec γ rs).headD []))
        :: computeReturnsVec γ rs := by
  have hlen : (computeReturnsVec γ rs).length = rs.length := computeReturnsVec_length γ rs
  cases hcr : computeReturnsVec γ rs with
  | nil =>
      rw [hcr] at hlen
      exact absurd (List.length_eq_zero.mp hlen.symm) h
  | cons t rest =>
      show (match computeReturnsVec γ rs with
            | [] => [r]
            | t :: rest => (r.zipWith (fun x y => x + γ * y) t) :: t :: rest)
          = _
      rw [hcr]
      rfl

/-- A PyTorch float32 machine epsilon, `numpy.finfo(numpy.float32).eps`
(src/generator.py line 156): exactly 2^-23. -/
def eps32 : ℚ := 1 / 2 ^ 23

/-- `tensor.mean()` over a batch vector. -/
def pymean (v : List ℚ) : ℚ := v.sum / (v.length : ℚ)

/-- `tensor.std()` squared: the unbiased sample variance torch uses
(denominator `n - 1`).  The square root itself is not a rational
operation, so `update` below takes the square-root function as an
explicit parameter `sq`; every theorem about `update` holds for all
interpretations of `sq`. -/
def varUnbiased (v : List ℚ) : ℚ :=
  (v.map (fun x => (x - pymean v) ^ 2)).sum / ((v.length : ℚ) - 1)

/-- Per-step batch normalization of `update` (src/generator.py lines
156-158): `returns[i] = (returns[i] - returns[i].mean()) /
(returns[i].std() + eps)`. -/
def normalizeReturns (sq : ℚ → ℚ) (eps : ℚ) (v : List ℚ) : List ℚ :=
  v.map (fun x => (x - pymean v) / (sq (varUnbiased v) + eps))

/-- The transient per-episode state of the `Policy` network that
`update` consumes (src/generator.py lines 29-32): the collected action
log-probabilities, the collected per-step rewards, and the running
reward accumulator. -/
structure PolicyState where
  probs : List (List ℚ)
  rewards : List (List ℚ)
  running_reward : ℚ
deriving DecidableEq

/-- The two ways `update` can raise instead of returning: the
`assert len(nn_policy.probs) == len(returns)` on line 160, and the
`torch.stack` of an empty loss list on line 167 (PyTorch raises on an
empty tensor list). -/
inductive UpdateError where
  | assertionFailed
  | emptyStack
deriving DecidableEq

/-- The `returns` list after the in-place normalization loop of
src/generator.py lines 156-158. -/
def updateNormalized (sq : ℚ → ℚ) (γ eps : ℚ) (s : PolicyState) : List (List ℚ) :=
  (computeReturnsVec γ s.rewards).map (normalizeReturns sq eps)

/-- The list built by `loss.append(-log_prob * reward)` over
`zip(nn_policy.probs, returns)` (src/generator.py lines 163-164), i.e.
the rows of the stacked loss tensor. -/
def updateLossSteps (sq : ℚ → ℚ) (γ eps : ℚ) (s : PolicyState) : List (List ℚ) :=
  (s.probs.zip (updateNormalized sq γ eps s)).map
    (fun pr => pr.1.zipWith (fun lp r => -lp * r) pr.2)

/-- `loss = torch.sum(loss, dim=1); loss = torch.sum(loss) /
loss.shape[0]` (src/generator.py lines 167-172): sum each stacked row,
then divide the total by the number of rows. -/
def updateLossScalar (sq : ℚ → ℚ) (γ eps : ℚ) (s : PolicyState) : ℚ :=
  ((updateLossSteps sq γ eps s).map (fun row => row.sum)).sum
    / (((updateLossSteps sq γ eps s).map (fun row => row.sum)).length : ℚ)

/-- `generator.update` (src/generator.py lines 144-186), minus the
parameter-mutating `loss.backward()` / `optimizer.step()` calls, which
do not touch the embedded state.  Computes returns-to-go, normalizes
them per step across the batch, asserts that the number of collected
log-probabilities matches the number of returns (line 160), forms the
REINFORCE loss `-log_prob * return`, stacks it (raising on an empty
list), sums over dim 1, divides by `loss.shape[0]`, accumulates
`-1 * loss` into the running reward, and clears both transient
buffers. -/
def update (sq : ℚ → ℚ) (γ eps : ℚ) (s : PolicyState) : Except UpdateError PolicyState :=
  if s.probs.length ≠ (updateNormalized sq γ eps s).length then
    Except.error UpdateError.assertionFailed
  else if (updateLossSteps sq γ eps s).length = 0 then
    Except.error UpdateError.emptyStack
  else
    Except.ok
      { probs := []
      , rewards := []
      , running_reward := s.running_reward + (-1) * updateLossScalar sq γ eps s }

/-!  ## Generator-phase reward computation (src/application.py)

`collect_reward` (lines 93-102) renders the batch, feeds the images to
the discriminator, and returns the column `1 - output[r]` per batch
row.  The rendering/discriminator pipeline is embedded as an abstract
per-row scoring function `D` on the batch.  `q_value` is the body of
the reward branch of `adversarial_generator` (lines 131-144): the
columns concatenated into `q_values` followed by `torch.mean(q_values,
dim=1)`. -/

/-- `collect_reward` (src/application.py lines 93-102): per batch row,
`1 - output[r]` of the discriminator output on the (rendered) batch. -/
def collect_reward (D : List (List ℚ) → List ℚ) (b : List (List ℚ)) : List ℚ :=
  (D b).map (fun o => 1 - o)

/-- Pointwise sum of a nonempty list of equal-length columns. -/
def sumColumns : List (List ℚ) → List ℚ
  | [] => []
  | [c] => c
  | c :: cs => c.zipWith (fun x y => x + y) (sumColumns cs)

/-- `torch.mean(q_values, dim=1)`: given the list of collected reward
columns, the per-row mean across columns. -/
def meanDim1 (cols : List (List ℚ)) : List ℚ :=
  (sumColumns cols).map (fun x => x / (cols.length : ℚ))

/-- The per-step reward computed by `adversarial_generator`
(src/application.py lines 131-144), exactly as the source branches:

    if not batch.shape[1] < sequence_length:
        for _ in range(montecarlo_trials):
            samples = generator.rollout(nn_rollout, batch, hidden)
            reward = collect_reward(nn_discriminator, samples)
            q_values = torch.cat([q_values, reward], dim=1)
    else:
        reward = collect_reward(nn_discriminator, batch)
        q_values = torch.cat([q_values, reward], dim=1)
    q_values = torch.mean(q_values, dim=1)

`S` is the configured sequence length, `M` the Monte Carlo trial
count, `roll i` the (nondeterministically sampled) rollout completion
of trial `i`. -/
def q_value (S M : ℕ) (D : List (List ℚ) → List ℚ)
    (roll : ℕ → List (List ℚ) → List (List ℚ)) (b : List (List ℚ)) : List ℚ :=
  let cols :=
    if ¬ b.length < S then
      (List.range M).map (fun i => collect_reward D (roll i b))
    else
      [collect_reward D b]
  meanDim1 cols

/-- The reward computation as the specification words it (for
comparison with `q_value`): a still-unfinished sequence (length < S)
gets the mean over the Monte Carlo rollout completions, an
already-complete one a single direct discriminator evaluation. -/
def q_value_claimed (S M : ℕ) (D : List (List ℚ) → List ℚ)
    (roll : ℕ → List (List ℚ) → List (List ℚ)) (b : List (List ℚ)) : List ℚ :=
  if b.length < S then
    meanDim1 ((List.range M).map (fun i => collect_reward D (roll i b)))
  else
    meanDim1 [collect_reward D b]

/-!  ## Experiment logger (src/log.py lines 66-90)

The running accumulators live on the three networks
(`nn_generator.running_reward`, `nn_discriminator.running_loss`,
`nn_oracle.running_loss`); `LogState` collects them together with the
three module-level trajectory lists.  `logIteration` is the effect of
a call `log(iteration, g_steps, d_steps, ...)`.

The source function cannot complete a call: the module initializes the
global `log = None` (line 8) and then `def log(...)` (line 66) rebinds
that same global name to the function itself, so inside the body the
lookup `log.info(entry)` (line 80) finds the enclosing function object,
which has no `info` attribute, and raises `AttributeError` on every
call — after the three entry values of lines 68-70 have been computed
and the entry string formatted, but before the `printout` echo (line
82), the trajectory appends (lines 84-86) and the accumulator resets
(lines 88-90).  The embedding therefore returns
`Except.error LogError.attributeError` from that point; the
append/reset continuation after the failing write is kept in the
definition but is unreachable. -/

structure LogState where
  g_running : ℚ
  d_running : ℚ
  o_running : ℚ
  g_traj : List ℚ
  d_traj : List ℚ
  o_traj : List ℚ
deriving DecidableEq

/-- The three numbers a log entry would record. -/
structure LogRecord where
  g_reward : ℚ
  d_loss : ℚ
  o_loss : ℚ
deriving DecidableEq

/-- The way a `log` call can raise: the `log.info(entry)` attribute
lookup on the function object itself (src/log.py line 80). -/
inductive LogError where
  | attributeError
deriving DecidableEq

/-- The local values computed by src/log.py lines 68-70, which do
execute before the call raises:

    g_reward = -1 * nn_generator.running_reward / (iteration * g_steps)
    o_loss = nn_oracle.running_loss / (iteration * g_steps)
    d_loss = nn_discriminator.running_loss / (iteration * d_steps)
-/
def logEntryValues (iteration g_steps d_steps : ℕ) (s : LogState) : LogRecord :=
  { g_reward := -1 * s.g_running / ((iteration : ℚ) * (g_steps : ℚ))
  , d_loss := s.d_running / ((iteration : ℚ) * (d_steps : ℚ))
  , o_loss := s.o_running / ((iteration : ℚ) * (g_steps : ℚ)) }

/-- `log.info(entry)` at src/log.py line 80: inside the function the
global name `log` is the function object itself (rebound by its own
`def` from the initial `None`), which has no `info` attribute, so the
lookup raises `AttributeError` unconditionally. -/
def logInfoWrite (_ : LogRecord) : Except LogError Unit :=
  Except.error LogError.attributeError

/-- `log.log` (src/log.py lines 66-90): compute the entry values
(lines 68-70), attempt to write the entry (line 80), and only on a
successful write reach the trajectory appends (lines 84-86) and the
accumulator resets (lines 88-90).  Since `logInfoWrite` always raises,
every call errors with the state untouched. -/
def logIteration (iteration g_steps d_steps : ℕ) (s : LogState) :
    Except LogError (LogRecord × LogState) :=
  match logInfoWrite (logEntryValues iteration g_steps d_steps s) with
  | Except.error e => Except.error e
  | Except.ok _ =>
      Except.ok
        (logEntryValues iteration g_steps d_steps s,
         { g_running := 0
         , d_running := 0
         , o_running := 0
         , g_traj := s.g_traj ++ [s.g_running]
         , d_traj := s.d_traj ++ [s.d_running]
         , o_traj := s.o_traj ++ [s.o_running] })

/-!  ## Loader helpers (src/loader.py) -/

/-- One comparison step of Python `max`: keep the current value unless
the next is strictly larger (spelled out with an `if` so that concrete
instances evaluate). -/
def pyMaxStep (a b : ℚ) : ℚ := if a < b then b else a

/-- One comparison step of Python `min`. -/
def pyMinStep (a b : ℚ) : ℚ := if b < a then b else a

/-- Python `max(vector)` for a list of numbers; the source never calls
it on an empty list (Python would raise), the `[]` case is an arbitrary
total extension. -/
def pymax : List ℚ → ℚ
  | [] => 0
  | x :: xs => xs.foldl pyMaxStep x

/-- Python `min(vector)`. -/
def pymin : List ℚ → ℚ
  | [] => 0
  | x :: xs => xs.foldl pyMinStep x

/-- `loader.normalize` (src/loader.py lines 254-260):

    if max(vector) - min(vector) == 0:
        return numpy.array([0.5] * len(vector))
    return (vector - min(vector)) / (max(vector) - min(vector))
-/
def normalize (v : List ℚ) : List ℚ :=
  if pymax v - pymin v = 0 then
    List.replicate v.length (1 / 2)
  else
    v.map (fun x => (x - pymin v) / (pymax v - pymin v))

/-- Python `str` of a list of integers: `"[31, 53, 2, 1]"`. -/
def pyStrNatList (l : List ℕ) : String :=
  "[" ++ String.intercalate ", " (l.map toString) ++ "]"

/-- The decoded id lists of `save_sequences` (src/loader.py lines
66-72): each sequence mapped through `tokens.id`.  The token vocabulary
module is not in the sources, so the decode map is a parameter. -/
def sequenceIdsLines {α : Type} (tokenId : α → ℕ) (samples : List (List α)) : List (List ℕ) :=
  samples.map (fun seq => seq.map tokenId)

/-- The text `save_sequences` actually writes to `sequences.txt`
(src/loader.py lines 61-76):

    all_sequences = '\n'.join(str(s) for s in sequences)
    f.write(all_sequences)

where `sequences` is the list of decoded id *lists*, so each line is
Python `str` of a list, brackets included.  (The `strings` variable of
lines 64/73, which holds the bracket-free comma-joined rendering, is
computed but never written.) -/
def save_sequences_text {α : Type} (tokenId : α → ℕ) (samples : List (List α)) : String :=
  String.intercalate "\n" ((sequenceIdsLines tokenId samples).map pyStrNatList)

/-- The text the claim (and the function's own docstring) describes:
one line per sequence, the decoded ids joined by `', '` with no
surrounding characters — exactly the unused `strings` list of
src/loader.py lines 64/73, joined by newlines. -/
def claimed_sequences_text {α : Type} (tokenId : α → ℕ) (samples : List (List α)) : String :=
  String.intercalate "\n"
    ((sequenceIdsLines tokenId samples).map
      (fun ids => String.intercalate ", " (ids.map toString)))

/-- Python single-character `str.replace` as used on the timestamp. -/
def pyReplaceChar (c r : Char) (s : String) : String :=
  String.mk (s.toList.map (fun x => if x = c then r else x))

/-- Python `s[:-n]`. -/
def pyDropLast (n : ℕ) (s : String) : String :=
  String.mk (s.toList.take (s.length - n))

/-- The directory name computed by `make_directory_with_timestamp`
(src/loader.py lines 88-89):

    directory = paths.results + '/' + str(datetime.datetime.now())
    directory = directory.replace(':', '-').replace(' ', '-')[:-7]

`now` is the `str()` rendering of the current time, which for a
non-zero microsecond field is `YYYY-MM-DD HH:MM:SS.ffffff` with six
fractional digits. -/
def make_directory_name (results now : String) : String :=
  pyDropLast 7 (pyReplaceChar ' ' '-' (pyReplaceChar ':' '-' (results ++ "/" ++ now)))

lemma pyMaxStep_eq : pyMaxStep = (max : ℚ → ℚ → ℚ) := by
  funext a b
  unfold pyMaxStep
  rcases lt_or_le a b with h | h
  · rw [if_pos h, max_eq_right (le_of_lt h)]
  · rw [if_neg (not_lt.mpr h), max_eq_left h]

lemma pyMinStep_eq : pyMinStep = (min : ℚ → ℚ → ℚ) := by
  funext a b
  unfold pyMinStep
  rcases lt_or_le b a with h | h
  · rw [if_pos h, min_eq_right (le_of_lt h)]
  · rw [if_neg (not_lt.mpr h), min_eq_left h]

lemma pymax_cons (x : ℚ) (xs : List ℚ) : pymax (x :: xs) = xs.foldl max x := by
  show xs.foldl pyMaxStep x = xs.foldl max x
  rw [pyMaxStep_eq]

lemma pymin_cons (x : ℚ) (xs : List ℚ) : pymin (x :: xs) = xs.foldl min x := by
  show xs.foldl pyMinStep x = xs.foldl min x
  rw [pyMinStep_eq]

lemma le_foldl_max : ∀ (xs : List ℚ) (x : ℚ), x ≤ xs.foldl max x := by
  intro xs
  induction xs with
  | nil => intro x; exact le_refl x
  | cons a xs ih =>
      intro x
      exact le_trans (le_max_left x a) (ih (max x a))

lemma mem_le_foldl_max : ∀ (xs : List ℚ) (x a : ℚ), a ∈ xs → a ≤ xs.foldl max x := by
  intro xs
  induction xs with
  | nil => intro x a ha; exact absurd ha (List.not_mem_nil a)
  | cons b xs ih =>
      intro x a ha
      rcases List.mem_cons.mp ha with h | h
      · subst h
        exact le_trans (le_max_right x a) (le_foldl_max xs (max x a))
      · exact ih (max x b) a h

lemma foldl_max_mem : ∀ (xs : List ℚ) (x : ℚ), xs.foldl max x ∈ x :: xs := by
  intro xs
  induction xs with
  | nil => intro x; exact List.mem_singleton.mpr rfl
  | cons a xs ih =>
      intro x
      have h := ih (max x a)
      rw [List.foldl_cons]
      rcases List.mem_cons.mp h with h1 | h1
      · rw [h1]
        rcases max_choice x a with hc | hc
        · rw [hc]
          exact List.mem_cons_self x (a :: xs)
        · rw [hc]
          exact List.mem_cons.mpr (Or.inr (List.mem_cons_self a xs))
      · exact List.mem_cons.mpr (Or.inr (List.mem_cons.mpr (Or.inr h1)))

lemma foldl_min_ge : ∀ (xs : List ℚ) (x : ℚ), xs.foldl min x ≤ x := by
  intro xs
  induction xs with
  | nil => intro x; exact le_refl x
  | cons a xs ih =>
      intro x
      exact le_trans (ih (min x a)) (min_le_left x a)

lemma foldl_min_le_mem : ∀ (xs : List ℚ) (x a : ℚ), a ∈ xs → xs.foldl min x ≤ a := by
  intro xs
  induction xs with
  | nil => intro x a ha; exact absurd ha (List.not_mem_nil a)
  | cons b xs ih =>
      intro x a ha
      rcases List.mem_cons.mp ha with h | h
      · subst h
        exact le_trans (foldl_min_ge xs (min x a)) (min_le_right x a)
      · exact ih (min x b) a h

lemma foldl_min_mem : ∀ (xs : List ℚ) (x : ℚ), xs.foldl min x ∈ x :: xs := by
  intro xs
  induction xs with
  | nil => intro x; exact List.mem_singleton.mpr rfl
  | cons a xs ih =>
      intro x
      have h := ih (min x a)
      rw [List.foldl_cons]
      rcases List.mem_cons.mp h with h1 | h1
      · rw [h1]
        rcases min_choice x a with hc | hc
        · rw [hc]
          exact List.mem_cons_self x (a :: xs)
        · rw [hc]
          exact List.mem_cons.mpr (Or.inr (List.mem_cons_self a xs))
      · exact List.mem_cons.mpr (Or.inr (List.mem_cons.mpr (Or.inr h1)))

lemma le_pymax (v : List ℚ) (a : ℚ) (ha : a ∈ v) : a ≤ pymax v := by
  cases v with
  | nil => exact absurd ha (List.not_mem_nil a)
  | cons x xs =>
      rw [pymax_cons]
      rcases List.mem_cons.mp ha with h | h
      · subst h; exact le_foldl_max xs a
      · exact mem_le_foldl_max xs x a h

lemma pymin_le (v : List ℚ) (a : ℚ) (ha : a ∈ v) : pymin v ≤ a := by
  cases v with
  | nil => exact absurd ha (List.not_mem_nil a)
  | cons x xs =>
      rw [pymin_cons]
      rcases List.mem_cons.mp ha with h | h
      · subst h; exact foldl_min_ge xs a
      · exact foldl_min_le_mem xs x a h

lemma pymax_mem (v : List ℚ) (hne : v ≠ []) : pymax v ∈ v := by
  cases v with
  | nil => exact absurd rfl hne
  | cons x xs =>
      rw [pymax_cons]
      exact foldl_max_mem xs x

lemma pymin_mem (v : List ℚ) (hne : v ≠ []) : pymin v ∈ v := by
  cases v with
  | nil => exact absurd rfl hne
  | cons x xs =>
      rw [pymin_cons]
      exact foldl_min_mem xs x

lemma headD_eq_getD_zero (l : List (List ℚ)) : l.headD [] = l.getD 0 [] := by
  cases l with
  | nil => rfl
  | cons a t => rfl

lemma crv_getD_rec (γ : ℚ) :
    ∀ (rewards : List (List ℚ)) (t : ℕ), t + 1 < rewards.length →
      (computeReturnsVec γ rewards).getD t [] =
        (rewards.getD t []).zipWith (fun x y => x + γ * y)
          ((computeReturnsVec γ rewards).getD (t + 1) []) := by
  intro rewards
  induction rewards with
  | nil => intro t ht; simp at ht
  | cons r rs ih =>
      intro t ht
      have hrs : rs ≠ [] := by
        intro hnil
        subst hnil
        simp at ht
      rw [computeReturnsVec_cons_of_ne γ r rs hrs]
      cases t with
      | zero =>
          simp only [List.getD_cons_zero, List.getD_cons_succ]
          rw [headD_eq_getD_zero]
      | succ u =>
          simp only [List.getD_cons_succ]
          apply ih
          simp only [List.length_cons] at ht
          omega

lemma crv_getD_last (γ : ℚ) :
    ∀ rewards : List (List ℚ), rewards ≠ [] →
      (computeReturnsVec γ rewards).getD (rewards.length - 1) []
        = rewards.getD (rewards.length - 1) [] := by
  intro rewards
  induction rewards with
  | nil => intro h; exact absurd rfl h
  | cons r rs ih =>
      intro _
      cases rs with
      | nil => rfl
      | cons s ss =>
          have hrs : (s :: ss) ≠ [] := List.cons_ne_nil s ss
          rw [computeReturnsVec_cons_of_ne γ r (s :: ss) hrs]
          have hlen : (r :: s :: ss).length - 1 = ((s :: ss).length - 1) + 1 := by
            simp only [List.length_cons]
            omega
          rw [hlen, List.getD_cons_succ, List.getD_cons_succ]
          exact ih hrs

/-- Claim C2: in the policy update, returns-to-go are computed from the
end backward as `G_t = r_t + gamma * G_{t+1}` (elementwise on the
per-step reward tensor), with the return past the last step being the
scalar 0, so the last return equals the last reward; in particular a
single-step episode with reward r has return r, and a two-step episode
with rewards [r1, r2] has returns [r1 + gamma * r2, r2]. -/
theorem c2_returns_to_go (γ : ℚ) (rewards : List (List ℚ)) (hne : rewards ≠ []) :
    (computeReturnsVec γ rewards).length = rewards.length
    ∧ (∀ t, t + 1 < rewards.length →
        (computeReturnsVec γ rewards).getD t [] =
          (rewards.getD t []).zipWith (fun x y => x + γ * y)
            ((computeReturnsVec γ rewards).getD (t + 1) []))
    ∧ (computeReturnsVec γ rewards).getD (rewards.length - 1) []
        = rewards.getD (rewards.length - 1) []
    ∧ (∀ r : ℚ, computeReturnsVec γ [[r]] = [[r]])
    ∧ (∀ r1 r2 : ℚ, computeReturnsVec γ [[r1], [r2]] = [[r1 + γ * r2], [r2]]) :=
  ⟨computeReturnsVec_length γ rewards,
   fun t ht => crv_getD_rec γ rewards t ht,
   crv_getD_last γ rewards hne,
   fun _ => rfl,
   fun _ _ => rfl⟩

theorem c2_witness :
    (computeReturnsVec (98 / 100) [[(1 : ℚ)], [2]]).length = 2
    ∧ computeReturnsVec (98 / 100) [[(1 : ℚ)], [2]] = [[1 + (98 / 100) * 2], [2]] :=
  ⟨(c2_returns_to_go (98 / 100) [[(1 : ℚ)], [2]] (by decide)).1,
   (c2_returns_to_go (98 / 100) [[(1 : ℚ)], [2]] (by decide)).2.2.2.2 1 2⟩

/-- Claim C4: for every starting partial batch (sequence length < the
configured length L), with the per-iteration sampled completions being
one-hot encodings of a nonempty batch of in-vocabulary actions, the
rollout loop (i) produces a batch of length exactly L, (ii) never
reduces the sequence length below its starting value at any
intermediate point (any fuel truncation of the loop), and (iii) has
terminated: running the loop again from the result, for any number of
further iterations, changes nothing. -/
theorem c4_rollout_terminates_full_length (L d : ℕ) (acts : ℕ → List ℕ)
    (b : List (List ℚ)) (hshort : b.length < L)
    (hbatch : ∀ k, acts k ≠ []) (hvocab : ∀ k, ∀ a ∈ acts k, a < d) :
    (rollout (fun k => encodeSlice d (acts k)) L b).length = L
    ∧ (∀ fuel k, b.length ≤ (rolloutAux (fun k => encodeSlice d (acts k)) L fuel k b).length)
    ∧ (∀ fuel k, rolloutAux (fun k => encodeSlice d (acts k)) L fuel k
        (rollout (fun k => encodeSlice d (acts k)) L b)
        = rollout (fun k => encodeSlice d (acts k)) L b) := by
  have henc : ∀ k, ((fun k => encodeSlice d (acts k)) k).sum ≠ 0 :=
    fun k => sum_encodeSlice_ne_zero d (acts k) (hbatch k) (hvocab k)
  have hlen : (rollout (fun k => encodeSlice d (acts k)) L b).length = L := by
    rw [length_rollout _ L henc b]
    exact Nat.max_eq_left (Nat.le_of_lt hshort)
  refine ⟨hlen, fun fuel k => length_le_rolloutAux _ L fuel k b, fun fuel k => ?_⟩
  exact rolloutAux_of_full _ L fuel k _ (le_of_eq hlen.symm)

theorem c4_witness :
    (rollout (fun _ => encodeSlice 1 [0]) 2 [[5]]).length = 2 :=
  (c4_rollout_terminates_full_length 2 1 (fun _ => [0]) [[5]] (by decide)
    (fun _ => List.cons_ne_nil 0 [])
    (fun _ a ha => by
      have := List.mem_singleton.mp ha
      omega)).1

/-- Claim C10: rollout is the identity on every batch whose sequence
length already reaches the configured length L (for any number of loop
iterations), and composing two rollouts — even with fresh action
samples for the second — gives exactly the result of the first, so the
length dimension is idempotent under rollout. -/
theorem c10_rollout_identity_idempotent (L d : ℕ) (acts acts2 : ℕ → List ℕ)
    (b c : List (List ℚ)) (hfull : L ≤ c.length)
    (hbatch : ∀ k, acts k ≠ []) (hvocab : ∀ k, ∀ a ∈ acts k, a < d) :
    rollout (fun k => encodeSlice d (acts2 k)) L c = c
    ∧ (∀ fuel k, rolloutAux (fun k => encodeSlice d (acts2 k)) L fuel k c = c)
    ∧ rollout (fun k => encodeSlice d (acts2 k)) L
        (rollout (fun k => encodeSlice d (acts k)) L b)
      = rollout (fun k => encodeSlice d (acts k)) L b := by
  have henc : ∀ k, ((fun k => encodeSlice d (acts k)) k).sum ≠ 0 :=
    fun k => sum_encodeSlice_ne_zero d (acts k) (hbatch k) (hvocab k)
  have h3 : L ≤ (rollout (fun k => encodeSlice d (acts k)) L b).length := by
    rw [length_rollout _ L henc b]
    exact le_max_left L b.length
  exact ⟨rolloutAux_of_full _ L _ 0 c hfull,
    fun fuel k => rolloutAux_of_full _ L fuel k c hfull,
    rolloutAux_of_full _ L _ 0 _ h3⟩

theorem c10_witness :
    rollout (fun _ => encodeSlice 1 [0]) 2 [[1], [1]] = [[1], [1]] :=
  (c10_rollout_identity_idempotent 2 1 (fun _ => [0]) (fun _ => [0]) [[1]] [[1], [1]]
    (by decide) (fun _ => List.cons_ne_nil 0 [])
    (fun _ a ha => by
      have := List.mem_singleton.mp ha
      omega)).1

/-- Claim C5: after every successful policy update call (the update
returns normally rather than raising), the transient reward buffer and
log-probability buffer are both empty, regardless of the state they
held beforehand. -/
theorem c5_update_clears_buffers (sq : ℚ → ℚ) (γ eps : ℚ) (s s' : PolicyState)
    (h : update sq γ eps s = Except.ok s') :
    s'.rewards = [] ∧ s'.probs = [] := by
  unfold update at h
  split at h
  · exact Except.noConfusion h
  · split at h
    · exact Except.noConfusion h
    · injection h with h2
      subst h2
      exact ⟨rfl, rfl⟩

theorem c5_witness :
    update (fun x => x) (98 / 100) eps32 ⟨[[0, 0]], [[1, 3]], 0⟩
      = Except.ok (⟨[], [],
          (0 : ℚ) + (-1) * updateLossScalar (fun x => x) (98 / 100) eps32
            ⟨[[0, 0]], [[1, 3]], 0⟩⟩ : PolicyState)
    ∧ (⟨[], [],
          (0 : ℚ) + (-1) * updateLossScalar (fun x => x) (98 / 100) eps32
            ⟨[[0, 0]], [[1, 3]], 0⟩⟩ : PolicyState).rewards = []
    ∧ (⟨[], [],
          (0 : ℚ) + (-1) * updateLossScalar (fun x => x) (98 / 100) eps32
            ⟨[[0, 0]], [[1, 3]], 0⟩⟩ : PolicyState).probs = [] :=
  ⟨rfl, c5_update_clears_buffers (fun x => x) (98 / 100) eps32
    ⟨[[0, 0]], [[1, 3]], 0⟩
    ⟨[], [],
      (0 : ℚ) + (-1) * updateLossScalar (fun x => x) (98 / 100) eps32
        ⟨[[0, 0]], [[1, 3]], 0⟩⟩ rfl⟩

/-- Claim C6: the policy update raises (the line-160 assertion fails)
exactly when the count of collected log-probabilities differs from the
count of returns computed from the collected rewards; when the counts
agree it never fails on this ground. -/
theorem c6_update_assert_iff (sq : ℚ → ℚ) (γ eps : ℚ) (s : PolicyState) :
    update sq γ eps s = Except.error UpdateError.assertionFailed
      ↔ s.probs.length ≠ (computeReturnsVec γ s.rewards).length := by
  unfold update
  by_cases h1 : s.probs.length ≠ (computeReturnsVec γ s.rewards).length
  · have h1' : s.probs.length ≠ (updateNormalized sq γ eps s).length := by
      unfold updateNormalized
      rw [List.length_map]
      exact h1
    rw [if_pos h1']
    simp [h1]
  · have h1' : ¬ s.probs.length ≠ (updateNormalized sq γ eps s).length := by
      unfold updateNormalized
      rw [List.length_map]
      exact h1
    rw [if_neg h1']
    refine iff_of_false ?_ h1
    split
    · intro h
      injection h with h2
      exact UpdateError.noConfusion h2
    · intro h
      exact Except.noConfusion h

/-- Claim C7: the min-max normalization helper `loader.normalize` maps
every non-empty constant list to uniform 0.5 values, and every list
with at least two distinct values elementwise to
`(x - min) / (max - min)`, so all outputs lie in [0, 1] with the
minimum mapped to 0 and the maximum to 1; concretely `[1, 2, 4]` maps
to `[0, 1/3, 1]`. -/
theorem c7_normalize_minmax (v : List ℚ) (hne : v ≠ []) :
    ((∀ a ∈ v, ∀ b ∈ v, a = b) → normalize v = List.replicate v.length (1 / 2))
    ∧ ((∃ a ∈ v, ∃ b ∈ v, a ≠ b) →
        normalize v = v.map (fun x => (x - pymin v) / (pymax v - pymin v))
        ∧ (∀ z ∈ normalize v, 0 ≤ z ∧ z ≤ 1)
        ∧ (0 : ℚ) ∈ normalize v ∧ (1 : ℚ) ∈ normalize v)
    ∧ normalize [1, 2, 4] = [0, 1 / 3, 1] := by
  refine ⟨?_, ?_,
    by norm_num [normalize, pymax, pymin, pyMaxStep, pyMinStep]⟩
  · intro hall
    have hmax : pymax v - pymin v = 0 := by
      have h1 : pymax v ∈ v := pymax_mem v hne
      have h2 : pymin v ∈ v := pymin_mem v hne
      rw [hall (pymax v) h1 (pymin v) h2]
      exact sub_self _
    unfold normalize
    rw [if_pos hmax]
  · rintro ⟨a, ha, b, hb, hab⟩
    have hlt : pymin v < pymax v := by
      rcases lt_or_le (pymin v) (pymax v) with h | h
      · exact h
      · exfalso
        have h1 : a ≤ pymax v := le_pymax v a ha
        have h2 : pymin v ≤ a := pymin_le v a ha
        have h3 : b ≤ pymax v := le_pymax v b hb
        have h4 : pymin v ≤ b := pymin_le v b hb
        apply hab
        linarith
    have hsub : pymax v - pymin v ≠ 0 := sub_ne_zero_of_ne (ne_of_gt hlt)
    have hpos : 0 < pymax v - pymin v := sub_pos.mpr hlt
    have hform : normalize v = v.map (fun x => (x - pymin v) / (pymax v - pymin v)) := by
      unfold normalize
      rw [if_neg hsub]
    refine ⟨hform, ?_, ?_, ?_⟩
    · intro z hz
      rw [hform] at hz
      rcases List.mem_map.mp hz with ⟨y, hy, rfl⟩
      constructor
      · exact div_nonneg (sub_nonneg.mpr (pymin_le v y hy)) (le_of_lt hpos)
      · rw [div_le_one hpos]
        exact sub_le_sub_right (le_pymax v y hy) _
    · rw [hform]
      exact List.mem_map.mpr ⟨pymin v, pymin_mem v hne, by rw [sub_self, zero_div]⟩
    · rw [hform]
      exact List.mem_map.mpr ⟨pymax v, pymax_mem v hne, div_self hsub⟩

theorem c7_witness :
    normalize [1, 2, 4] = [0, 1 / 3, 1] ∧ (1 : ℚ) ∈ normalize [1, 2, 4] :=
  ⟨(c7_normalize_minmax [1, 2, 4] (by simp)).2.2,
   ((c7_normalize_minmax [1, 2, 4] (by simp)).2.1
      ⟨1, by simp, 2, by simp, by norm_num⟩).2.2.2⟩

/-- Claim C1 (evaluation at the failing input): in
`adversarial_generator`, with sequence length 2, 2 Monte Carlo trials,
discriminator output `batch length / 4` per row, and the actual
rollout as completion, a still-unfinished batch of length 1 receives
the single direct discriminator evaluation of the partial batch
(`[3/4]`), not the Monte Carlo rollout mean the claim mandates
(`[1/2]`): the source condition `if not batch.shape[1] <
sequence_length` runs the rollout trials only for already-complete
batches and the direct evaluation only for unfinished ones. -/
theorem c1_reward_branch_eval :
    q_value 2 2 (fun c => [(c.length : ℚ) / 4]) (fun _ c => rollout (fun _ => [1]) 2 c) [[1]]
      = [3 / 4]
    ∧ q_value_claimed 2 2 (fun c => [(c.length : ℚ) / 4])
        (fun _ c => rollout (fun _ => [1]) 2 c) [[1]]
      = [1 / 2]
    ∧ ([3 / 4] : List ℚ) ≠ [1 / 2] := by
  refine ⟨?_, ?_, by norm_num⟩
  · norm_num [q_value, collect_reward, meanDim1, sumColumns, List.range_succ]
  · norm_num [q_value_claimed, collect_reward, meanDim1, sumColumns, rollout,
      rolloutAux, rolloutFuel, leadingZeroSlices, stepBatch, List.range_succ]

/-- Claim C3 (evaluation at the failing input): every call of the
per-iteration log function raises — the `def log` statement rebinds
the module-global name `log` (initially `None`) to the function
itself, so the `log.info(entry)` lookup at src/log.py line 80 raises
`AttributeError` on every call — before the trajectory appends and the
accumulator resets, so no mean is recorded, nothing is appended, and
no accumulator is reset.  Moreover even the entry values computed
before the raise divide by `iteration * g_steps` (the cumulative step
count): at iteration 2 with `g_steps = 1`, an oracle accumulator of 3
contributed by the single step since the previous reset yields 3/2,
not the mean 3 the claim prescribes. -/
theorem c3_log_raises_eval :
    logIteration 2 1 1 ⟨0, 0, 3, [], [], []⟩ = Except.error LogError.attributeError
    ∧ (∀ iteration g_steps d_steps s,
        logIteration iteration g_steps d_steps s = Except.error LogError.attributeError)
    ∧ (logEntryValues 2 1 1 ⟨0, 0, 3, [], [], []⟩).o_loss = 3 / 2
    ∧ (3 : ℚ) / 2 ≠ 3 / 1 := by
  refine ⟨rfl, fun iteration g_steps d_steps s => rfl,
    by norm_num [logEntryValues], by norm_num⟩

/-- Claim C8 (evaluation at the failing input): `save_sequences`
writes one line per sequence, but each line is Python `str` of the
decoded id *list*, so a sequence decoding to `31, 53, 2, 1` is written
as `[31, 53, 2, 1]` — with surrounding brackets — while the claim (and
the function's own docstring, and the unused `strings` variable)
prescribe the bare comma-and-space-joined form `31, 53, 2, 1`. -/
theorem c8_sequences_text_eval :
    save_sequences_text (fun n => n) [[31, 53, 2, 1]] = "[31, 53, 2, 1]"
    ∧ claimed_sequences_text (fun n => n) [[31, 53, 2, 1]] = "31, 53, 2, 1"
    ∧ save_sequences_text (fun n => n) [[31, 53, 2, 1], [7]] = "[31, 53, 2, 1]\n[7]"
    ∧ ("[31, 53, 2, 1]" : String) ≠ "31, 53, 2, 1" := by
  refine ⟨rfl, rfl, rfl, by decide⟩

/-- Claim C9 (evaluation at the failing input): the `[:-7]` slice in
`make_directory_with_timestamp` removes the entire `.ffffff` fraction
of the rendered time, so two times in the same second but with
different microseconds produce the *same* directory name — the name
has second precision, not millisecond precision (the filesystem-safe
part of the claim does hold: no ':' and no ' ' survive). -/
theorem c9_directory_name_eval :
    make_directory_name "results" "2021-05-06 11:22:33.123456"
      = "results/2021-05-06-11-22-33"
    ∧ make_directory_name "results" "2021-05-06 11:22:33.999999"
      = "results/2021-05-06-11-22-33"
    ∧ (make_directory_name "results" "2021-05-06 11:22:33.123456").toList.contains ':'
      = false
    ∧ (make_directory_name "results" "2021-05-06 11:22:33.123456").toList.contains ' '
      = false := by
  refine ⟨by decide, by decide, by decide, by decide⟩

end Formelbaer
